import Mathlib

/-!
Verification of the iroha-python specification against a shallow embedding.

The repository fragment under scrutiny consists of declarative call-sites
(struct/enum schema declarations, a resolution trigger, and the thin
Domain wrapper).  The codec and registry core that the specification
describes lives in the wrapped native library, so that core is modelled
here directly from the specification text; the Domain wrapper is embedded
from the source file iroha2/data_model/domain/__init__.py.
-/

namespace Iroha

/-- Modelled from the spec: a TypeName is a string identifier, globally
unique within the Registry. -/
abbrev TypeName := String

/-- Byte streams are modelled as lists of naturals (each byte below 256). -/
abbrev Bytes := List Nat

/-- Modelled from the spec: primitive kinds.  The claims exercise only the
fixed-width little-endian uint32 primitive, so the model carries that one. -/
inductive PrimKind where
  | uint32
deriving DecidableEq, Repr

/-- Modelled from the spec: a TypeRef is either a primitive kind, an
unresolved TypeName placeholder (PendingRef), or a reference resolved to a
registered Descriptor, kept by name so that recursive schemas stay
representable. -/
inductive TypeRef where
  | prim : PrimKind → TypeRef
  | pending : TypeName → TypeRef
  | resolved : TypeName → TypeRef
deriving DecidableEq, Repr

/-- Modelled from the spec: the three Descriptor kinds — Struct (named
ordered fields), Enum (ordered variants, each with an optional payload),
Tuple (positional elements). -/
inductive Descriptor where
  | struct : List (String × TypeRef) → Descriptor
  | enum : List (String × Option TypeRef) → Descriptor
  | tuple : List TypeRef → Descriptor
deriving DecidableEq, Repr

/-- Modelled from the spec: the Registry maps TypeNames to Descriptors. -/
abbrev Registry := List (TypeName × Descriptor)

/-- Registry lookup by name. -/
def lookupReg : Registry → TypeName → Option Descriptor
  | [], _ => none
  | (k, d) :: rest, n => if k = n then some d else lookupReg rest n

/-- Modelled from the spec: the error taxonomy of section 7. -/
inductive CodecError where
  | duplicateDefinition : TypeName → CodecError
  | unresolvedType : TypeName → CodecError
  | shapeMismatch : String → CodecError
  | unknownVariant : Nat → CodecError
  | decodeError : CodecError
deriving DecidableEq, Repr

/-- Modelled from the spec: registering a Descriptor under a fresh name;
redefining an existing name fails with DuplicateDefinitionError. -/
def defineDescriptor (reg : Registry) (name : TypeName) (d : Descriptor) :
    Except CodecError Registry :=
  match lookupReg reg name with
  | some _ => .error (.duplicateDefinition name)
  | none => .ok (reg ++ [(name, d)])

/-- Modelled from the spec: defineStruct builder. -/
def defineStruct (reg : Registry) (name : TypeName)
    (fields : List (String × TypeRef)) : Except CodecError Registry :=
  defineDescriptor reg name (.struct fields)

/-- Modelled from the spec: defineEnum builder. -/
def defineEnum (reg : Registry) (name : TypeName)
    (variants : List (String × Option TypeRef)) : Except CodecError Registry :=
  defineDescriptor reg name (.enum variants)

/-- Modelled from the spec: defineTuple builder. -/
def defineTuple (reg : Registry) (name : TypeName)
    (elements : List TypeRef) : Except CodecError Registry :=
  defineDescriptor reg name (.tuple elements)

/-- Modelled from the spec: resolving one TypeRef against a Registry
snapshot.  A PendingRef whose name is present becomes a resolved
reference; an absent name is an UnresolvedTypeError. -/
def resolveRef (reg : Registry) : TypeRef → Except CodecError TypeRef
  | .prim k => .ok (.prim k)
  | .pending n =>
      match lookupReg reg n with
      | some _ => .ok (.resolved n)
      | none => .error (.unresolvedType n)
  | .resolved n =>
      match lookupReg reg n with
      | some _ => .ok (.resolved n)
      | none => .error (.unresolvedType n)

/-- Resolution over the field list of a struct descriptor. -/
def resolveFields (reg : Registry) :
    List (String × TypeRef) → Except CodecError (List (String × TypeRef))
  | [] => .ok []
  | (nm, r) :: rest =>
      match resolveRef reg r with
      | .error e => .error e
      | .ok r2 =>
          match resolveFields reg rest with
          | .error e => .error e
          | .ok rest2 => .ok ((nm, r2) :: rest2)

/-- Resolution over the variant list of an enum descriptor. -/
def resolveVariants (reg : Registry) :
    List (String × Option TypeRef) → Except CodecError (List (String × Option TypeRef))
  | [] => .ok []
  | (nm, none) :: rest =>
      match resolveVariants reg rest with
      | .error e => .error e
      | .ok rest2 => .ok ((nm, none) :: rest2)
  | (nm, some r) :: rest =>
      match resolveRef reg r with
      | .error e => .error e
      | .ok r2 =>
          match resolveVariants reg rest with
          | .error e => .error e
          | .ok rest2 => .ok ((nm, some r2) :: rest2)

/-- Resolution over the element list of a tuple descriptor. -/
def resolveElems (reg : Registry) :
    List TypeRef → Except CodecError (List TypeRef)
  | [] => .ok []
  | r :: rest =>
      match resolveRef reg r with
      | .error e => .error e
      | .ok r2 =>
          match resolveElems reg rest with
          | .error e => .error e
          | .ok rest2 => .ok (r2 :: rest2)

/-- Resolution of a whole Descriptor against a Registry snapshot. -/
def resolveDescriptor (reg : Registry) : Descriptor → Except CodecError Descriptor
  | .struct fs =>
      match resolveFields reg fs with
      | .error e => .error e
      | .ok fs2 => .ok (.struct fs2)
  | .enum vs =>
      match resolveVariants reg vs with
      | .error e => .error e
      | .ok vs2 => .ok (.enum vs2)
  | .tuple es =>
      match resolveElems reg es with
      | .error e => .error e
      | .ok es2 => .ok (.tuple es2)

/-- One pass over a list of registry entries, resolving each descriptor
against the fixed snapshot `reg`. -/
def resolveEntries (reg : Registry) : Registry → Except CodecError Registry
  | [] => .ok []
  | (n, d) :: rest =>
      match resolveDescriptor reg d with
      | .error e => .error e
      | .ok d2 =>
          match resolveEntries reg rest with
          | .error e => .error e
          | .ok rest2 => .ok ((n, d2) :: rest2)

/-- Modelled from the spec: resolveAll performs a single pass over every
PendingRef reachable from every registered Descriptor, replacing each with
a resolved reference found in the Registry snapshot, or failing with
UnresolvedTypeError on the first missing name. -/
def resolveAll (reg : Registry) : Except CodecError Registry :=
  resolveEntries reg reg

/-- The pending (unresolved) names mentioned by one TypeRef. -/
def refPending : TypeRef → List TypeName
  | .pending n => [n]
  | _ => []

/-- Pending names of a struct field list. -/
def fieldsPending : List (String × TypeRef) → List TypeName
  | [] => []
  | (_, r) :: rest => refPending r ++ fieldsPending rest

/-- Pending names of an enum variant list. -/
def variantsPending : List (String × Option TypeRef) → List TypeName
  | [] => []
  | (_, none) :: rest => variantsPending rest
  | (_, some r) :: rest => refPending r ++ variantsPending rest

/-- Pending names of a tuple element list. -/
def elemsPending : List TypeRef → List TypeName
  | [] => []
  | r :: rest => refPending r ++ elemsPending rest

/-- Pending names of a Descriptor. -/
def descPending : Descriptor → List TypeName
  | .struct fs => fieldsPending fs
  | .enum vs => variantsPending vs
  | .tuple es => elemsPending es

/-- All pending names reachable from a Registry's descriptors. -/
def regPending : Registry → List TypeName
  | [] => []
  | (_, d) :: rest => descPending d ++ regPending rest

/-- Modelled from the spec: the Value model.  A struct value carries its
fields in declared order, an enum value carries the active variant name
with its optional payload, a tuple value carries positional elements. -/
inductive Value where
  | vuint32 : Nat → Value
  | vstruct : List (String × Value) → Value
  | venum : String → Option Value → Value
  | vtuple : List Value → Value

/-- Little-endian byte decomposition of a uint32. -/
def u32bytes (n : Nat) : Bytes :=
  [n % 256, n / 256 % 256, n / 65536 % 256, n / 16777216 % 256]

/-- Little-endian byte recomposition of a uint32. -/
def u32val (b0 b1 b2 b3 : Nat) : Nat :=
  b0 + 256 * b1 + 65536 * b2 + 16777216 * b3

/-- Index of a variant name in a declared variant list, together with the
payload TypeRef declared for it (discriminants follow declaration order). -/
def findVariant : List (String × Option TypeRef) → String → Option (Nat × Option TypeRef)
  | [], _ => none
  | (vn, pr) :: rest, name =>
      if vn = name then some (0, pr)
      else (findVariant rest name).map (fun p => (p.1 + 1, p.2))

mutual

/-- Modelled from the spec: shape validation of a Value against a TypeRef,
performed at construction time.  Mismatches are ShapeMismatchError;
dereferencing an unresolved reference is an UnresolvedTypeError. -/
def validateRef (reg : Registry) : TypeRef → Value → Except CodecError Unit
  | .prim .uint32, .vuint32 n =>
      if n < 4294967296 then .ok () else .error (.shapeMismatch "uint32 range")
  | .prim .uint32, _ => .error (.shapeMismatch "uint32")
  | .pending n, _ => .error (.unresolvedType n)
  | .resolved n, v =>
      match lookupReg reg n with
      | some d => validateDesc reg d v
      | none => .error (.unresolvedType n)

/-- Shape validation of a Value against a Descriptor. -/
def validateDesc (reg : Registry) : Descriptor → Value → Except CodecError Unit
  | .struct fs, .vstruct fvs => validateFields reg fs fvs
  | .struct _, _ => .error (.shapeMismatch "struct")
  | .enum vs, .venum name payload =>
      match findVariant vs name with
      | none => .error (.shapeMismatch name)
      | some (i, none) =>
          match payload with
          | none => if i < 256 then .ok () else .error (.shapeMismatch "discriminant")
          | some _ => .error (.shapeMismatch name)
      | some (i, some r) =>
          match payload with
          | none => .error (.shapeMismatch name)
          | some pv =>
              match validateRef reg r pv with
              | .error e => .error e
              | .ok () =>
                  if i < 256 then .ok () else .error (.shapeMismatch "discriminant")
  | .enum _, _ => .error (.shapeMismatch "enum")
  | .tuple es, .vtuple xs => validateElems reg es xs
  | .tuple _, _ => .error (.shapeMismatch "tuple")

/-- Field-wise validation: field names and order must match the declared
field list exactly, every declared field present and none extra. -/
def validateFields (reg : Registry) :
    List (String × TypeRef) → List (String × Value) → Except CodecError Unit
  | [], [] => .ok ()
  | (fn, r) :: fs, (vn, v) :: fvs =>
      if fn = vn then
        match validateRef reg r v with
        | .error e => .error e
        | .ok () => validateFields reg fs fvs
      else .error (.shapeMismatch fn)
  | (fn, _) :: _, [] => .error (.shapeMismatch fn)
  | [], (vn, _) :: _ => .error (.shapeMismatch vn)

/-- Element-wise validation of a tuple value: the arity must match. -/
def validateElems (reg : Registry) :
    List TypeRef → List Value → Except CodecError Unit
  | [], [] => .ok ()
  | r :: es, x :: xs =>
      match validateRef reg r x with
      | .error e => .error e
      | .ok () => validateElems reg es xs
  | _ :: _, [] => .error (.shapeMismatch "arity")
  | [], _ :: _ => .error (.shapeMismatch "arity")

end

mutual

/-- Modelled from the spec: canonical binary encoding of a Value against a
TypeRef.  Integers are fixed-width little-endian; shape mismatches fail
with ShapeMismatchError and never produce partial output. -/
def encodeRef (reg : Registry) : TypeRef → Value → Except CodecError Bytes
  | .prim .uint32, .vuint32 n =>
      if n < 4294967296 then .ok (u32bytes n) else .error (.shapeMismatch "uint32 range")
  | .prim .uint32, _ => .error (.shapeMismatch "uint32")
  | .pending n, _ => .error (.unresolvedType n)
  | .resolved n, v =>
      match lookupReg reg n with
      | some d => encodeDesc reg d v
      | none => .error (.unresolvedType n)

/-- Encoding of a Value against a Descriptor: struct fields in declared
order; enums as a one-byte discriminant (declaration-order ordinal)
followed by the payload encoding when the variant declares one; tuples in
positional order. -/
def encodeDesc (reg : Registry) : Descriptor → Value → Except CodecError Bytes
  | .struct fs, .vstruct fvs => encodeFields reg fs fvs
  | .struct _, _ => .error (.shapeMismatch "struct")
  | .enum vs, .venum name payload =>
      match findVariant vs name with
      | none => .error (.shapeMismatch name)
      | some (i, none) =>
          match payload with
          | none => if i < 256 then .ok [i] else .error (.shapeMismatch "discriminant")
          | some _ => .error (.shapeMismatch name)
      | some (i, some r) =>
          match payload with
          | none => .error (.shapeMismatch name)
          | some pv =>
              match encodeRef reg r pv with
              | .error e => .error e
              | .ok pb =>
                  if i < 256 then .ok (i :: pb) else .error (.shapeMismatch "discriminant")
  | .enum _, _ => .error (.shapeMismatch "enum")
  | .tuple es, .vtuple xs => encodeElems reg es xs
  | .tuple _, _ => .error (.shapeMismatch "tuple")

/-- Field-wise encoding in declared order. -/
def encodeFields (reg : Registry) :
    List (String × TypeRef) → List (String × Value) → Except CodecError Bytes
  | [], [] => .ok []
  | (fn, r) :: fs, (vn, v) :: fvs =>
      if fn = vn then
        match encodeRef reg r v with
        | .error e => .error e
        | .ok b1 =>
            match encodeFields reg fs fvs with
            | .error e => .error e
            | .ok b2 => .ok (b1 ++ b2)
      else .error (.shapeMismatch fn)
  | (fn, _) :: _, [] => .error (.shapeMismatch fn)
  | [], (vn, _) :: _ => .error (.shapeMismatch vn)

/-- Element-wise encoding in positional order. -/
def encodeElems (reg : Registry) :
    List TypeRef → List Value → Except CodecError Bytes
  | [], [] => .ok []
  | r :: es, x :: xs =>
      match encodeRef reg r x with
      | .error e => .error e
      | .ok b1 =>
          match encodeElems reg es xs with
          | .error e => .error e
          | .ok b2 => .ok (b1 ++ b2)
  | _ :: _, [] => .error (.shapeMismatch "arity")
  | [], _ :: _ => .error (.shapeMismatch "arity")

end

/-- Modelled from the spec: Value construction validates the shape against
the Descriptor at construction time and returns the Value whole, or fails
without returning any partial Value. -/
def construct (reg : Registry) (r : TypeRef) (v : Value) : Except CodecError Value :=
  match validateRef reg r v with
  | .ok () => .ok v
  | .error e => .error e

mutual

/-- Modelled from the spec: decoding a byte stream against a TypeRef,
returning the decoded Value and the unconsumed rest of the stream.
Registry dereferencing makes the recursion unbounded on cyclic schemas,
so the embedding carries a fuel counter; exhausted fuel is a DecodeError.
Insufficient bytes are a DecodeError. -/
def decodeRef (reg : Registry) : Nat → TypeRef → Bytes → Except CodecError (Value × Bytes)
  | 0, _, _ => .error .decodeError
  | _ + 1, .prim .uint32, b0 :: b1 :: b2 :: b3 :: rest =>
      .ok (.vuint32 (u32val b0 b1 b2 b3), rest)
  | _ + 1, .prim .uint32, _ => .error .decodeError
  | _ + 1, .pending n, _ => .error (.unresolvedType n)
  | fuel + 1, .resolved n, bs =>
      match lookupReg reg n with
      | some d => decodeDesc reg fuel d bs
      | none => .error (.unresolvedType n)

/-- Decoding against a Descriptor.  An enum reads its one-byte
discriminant first; a discriminant at or beyond the declared variant
count is an UnknownVariantError. -/
def decodeDesc (reg : Registry) : Nat → Descriptor → Bytes → Except CodecError (Value × Bytes)
  | 0, _, _ => .error .decodeError
  | fuel + 1, .struct fs, bs =>
      match decodeFields reg fuel fs bs with
      | .error e => .error e
      | .ok (fvs, rest) => .ok (.vstruct fvs, rest)
  | _ + 1, .enum _, [] => .error .decodeError
  | fuel + 1, .enum vs, b :: rest =>
      match vs.get? b with
      | none => .error (.unknownVariant b)
      | some (vn, none) => .ok (.venum vn none, rest)
      | some (vn, some r) =>
          match decodeRef reg fuel r rest with
          | .error e => .error e
          | .ok (pv, rest2) => .ok (.venum vn (some pv), rest2)
  | fuel + 1, .tuple es, bs =>
      match decodeElems reg fuel es bs with
      | .error e => .error e
      | .ok (xs, rest) => .ok (.vtuple xs, rest)

/-- Field-wise decoding in declared order. -/
def decodeFields (reg : Registry) :
    Nat → List (String × TypeRef) → Bytes → Except CodecError (List (String × Value) × Bytes)
  | 0, _, _ => .error .decodeError
  | _ + 1, [], bs => .ok ([], bs)
  | fuel + 1, (fn, r) :: fs, bs =>
      match decodeRef reg fuel r bs with
      | .error e => .error e
      | .ok (v, bs1) =>
          match decodeFields reg fuel fs bs1 with
          | .error e => .error e
          | .ok (fvs, bs2) => .ok ((fn, v) :: fvs, bs2)

/-- Element-wise decoding in positional order. -/
def decodeElems (reg : Registry) :
    Nat → List TypeRef → Bytes → Except CodecError (List Value × Bytes)
  | 0, _, _ => .error .decodeError
  | _ + 1, [], bs => .ok ([], bs)
  | fuel + 1, r :: es, bs =>
      match decodeRef reg fuel r bs with
      | .error e => .error e
      | .ok (x, bs1) =>
          match decodeElems reg fuel es bs1 with
          | .error e => .error e
          | .ok (xs, bs2) => .ok (x :: xs, bs2)

end

/-- Modelled from the spec: top-level decode must consume the byte stream
exactly; trailing bytes are a DecodeError. -/
def decode (reg : Registry) (fuel : Nat) (r : TypeRef) (bs : Bytes) :
    Except CodecError Value :=
  match decodeRef reg fuel r bs with
  | .ok (v, []) => .ok v
  | .ok (_, _ :: _) => .error .decodeError
  | .error e => .error e

mutual

/-- Fuel sufficient for decodeRef to reproduce what encodeRef emitted for
this TypeRef/Value pair (a definitional artifact of the fuelled decoder,
not part of the modelled interface). -/
def needRef (reg : Registry) : TypeRef → Value → Nat
  | .prim _, _ => 1
  | .pending _, _ => 1
  | .resolved n, v =>
      match lookupReg reg n with
      | some d => needDesc reg d v + 1
      | none => 1

/-- Fuel sufficient for decodeDesc on this Descriptor/Value pair. -/
def needDesc (reg : Registry) : Descriptor → Value → Nat
  | .struct fs, .vstruct fvs => needFields reg fs fvs + 1
  | .enum vs, .venum name payload =>
      (match findVariant vs name with
       | some (_, some r) =>
           match payload with
           | some pv => needRef reg r pv
           | none => 0
       | _ => 0) + 1
  | .tuple es, .vtuple xs => needElems reg es xs + 1
  | _, _ => 1

/-- Fuel sufficient for decodeFields on this field list and value list. -/
def needFields (reg : Registry) : List (String × TypeRef) → List (String × Value) → Nat
  | (_, r) :: fs, (_, v) :: fvs => max (needRef reg r v) (needFields reg fs fvs) + 1
  | _, _ => 1

/-- Fuel sufficient for decodeElems on this element list and value list. -/
def needElems (reg : Registry) : List TypeRef → List Value → Nat
  | r :: es, x :: xs => max (needRef reg r x) (needElems reg es xs) + 1
  | _, _ => 1

end

/-- Embedded from src/iroha2/data_model/domain/__init__.py: the wrapped Id
carries a name. -/
structure Id where
  name : String
deriving DecidableEq, Repr

/-- The Python constructor accepts either an Id instance or a plain
string for the id argument (Union[Id, str]). -/
inductive IdArg where
  | ofId : Id → IdArg
  | ofString : String → IdArg
deriving DecidableEq, Repr

/-- A generic string-keyed mapping; the wrapped entry types are opaque to
this fragment and only emptiness is at stake, so entries are kept
abstract as string pairs. -/
abbrev Mapping := List (String × String)

/-- Modelled from the spec: the wrapped native Domain record, whose field
set is fixed by the keyword arguments the source constructor passes
(id, logo, accounts, asset_definitions, metadata). -/
structure Domain where
  id : Id
  logo : Option String
  accounts : Mapping
  asset_definitions : Mapping
  metadata : Mapping
deriving DecidableEq, Repr

/-- Modelled from the spec: the wrapped native NewDomain record produced
for registration (id, logo, metadata). -/
structure NewDomain where
  id : Id
  logo : Option String
  metadata : Mapping
deriving DecidableEq, Repr

/-- Embedded from Domain.__init__: a string id is wrapped into Id, an Id
passes through; logo defaults to the absent marker none; accounts,
asset_definitions and metadata always start as empty mappings. -/
def Domain.init (i : IdArg) (logo : Option String := none) : Domain :=
  let idv : Id :=
    match i with
    | .ofString s => ⟨s⟩
    | .ofId x => x
  { id := idv, logo := logo, accounts := [], asset_definitions := [], metadata := [] }

/-- Embedded from Domain.registrable: builds a NewDomain from the domain's
own id and logo with an always-empty metadata mapping. -/
def Domain.registrable (d : Domain) : NewDomain :=
  { id := d.id, logo := d.logo, metadata := [] }

/-- The Point registry from the specification's worked example. -/
def pointReg : Registry :=
  [("Point", .struct [("x", .prim .uint32), ("y", .prim .uint32)])]

/-- The Point value with x = 1 and y = 2. -/
def pointValue : Value :=
  .vstruct [("x", .vuint32 1), ("y", .vuint32 2)]

/-- A two-variant enum registry used to exercise the discriminant bound. -/
def colorReg : Registry :=
  [("Color", .enum [("Red", none), ("Green", none)])]

/-- A registry whose single descriptor dangles on the never-declared
name Z. -/
def danglingReg : Registry :=
  [("A", .struct [("z", .pending "Z")])]

/-- A registry with a forward reference from A to B, resolvable. -/
def forwardReg : Registry :=
  [("A", .struct [("b", .pending "B")]), ("B", .tuple [])]

end Iroha

namespace Iroha

/-- C7: the Point struct encodes {x:1, y:2} to the 8 little-endian bytes
01 00 00 00 02 00 00 00, and decoding those bytes yields the value back. -/
theorem c7_point_example :
    encodeRef pointReg (.resolved "Point") pointValue =
      .ok [1, 0, 0, 0, 2, 0, 0, 0] ∧
    decode pointReg 9 (.resolved "Point") [1, 0, 0, 0, 2, 0, 0, 0] =
      .ok pointValue := by
  constructor
  · simp [pointReg, pointValue, encodeRef, encodeDesc, encodeFields, lookupReg, u32bytes]
  · simp [pointReg, pointValue, decode, decodeRef, decodeDesc, decodeFields, lookupReg, u32val]

end Iroha

namespace Iroha

/-- C9: the Domain constructor wraps a string id into Id and passes an Id
through, starts accounts, asset_definitions and metadata as empty
mappings, stores the given logo, and defaults logo to the absent marker
none when omitted. -/
theorem c9_domain_init (s : String) (x : Id) (a : IdArg) (logo : Option String) :
    (Domain.init (.ofString s) logo).id = ⟨s⟩ ∧
    (Domain.init (.ofId x) logo).id = x ∧
    (Domain.init a logo).logo = logo ∧
    (Domain.init a logo).accounts = [] ∧
    (Domain.init a logo).asset_definitions = [] ∧
    (Domain.init a logo).metadata = [] ∧
    Domain.init a = Domain.init a none :=
  ⟨rfl, rfl, rfl, rfl, rfl, rfl, rfl⟩

/-- C10: registrable returns a NewDomain carrying the domain's id and
logo with an always-empty metadata mapping, for every domain, whatever
the domain's own metadata holds; being a pure function of the domain it
leaves the domain itself unchanged. -/
theorem c10_registrable (d : Domain) :
    (Domain.registrable d).id = d.id ∧
    (Domain.registrable d).logo = d.logo ∧
    (Domain.registrable d).metadata = [] :=
  ⟨rfl, rfl, rfl⟩

/-- C8: encoding is deterministic — two encodings of the same Value
against the same TypeRef and Registry produce byte-identical output. -/
theorem c8_encode_deterministic (reg : Registry) (r : TypeRef) (v : Value)
    (b1 b2 : Bytes) (h1 : encodeRef reg r v = .ok b1)
    (h2 : encodeRef reg r v = .ok b2) : b1 = b2 := by
  rw [h1] at h2
  exact (Except.ok.injEq _ _).mp h2

/-- Witness for c8_encode_deterministic at the Point example. -/
theorem c8_encode_deterministic_witness :
    encodeRef pointReg (.resolved "Point") pointValue =
      .ok [1, 0, 0, 0, 2, 0, 0, 0] ∧
    ([1, 0, 0, 0, 2, 0, 0, 0] : Bytes) = [1, 0, 0, 0, 2, 0, 0, 0] := by
  have henc : encodeRef pointReg (.resolved "Point") pointValue =
      .ok [1, 0, 0, 0, 2, 0, 0, 0] := by
    simp [pointReg, pointValue, encodeRef, encodeDesc, encodeFields, lookupReg, u32bytes]
  exact ⟨henc, c8_encode_deterministic pointReg (.resolved "Point") pointValue
    _ _ henc henc⟩

/-- C5: redefining a registered TypeName through any of the three
builders fails with DuplicateDefinitionError carrying that name, and the
previously registered Descriptor is still what the Registry returns. -/
theorem c5_duplicate_definition (reg : Registry) (name : TypeName)
    (d0 : Descriptor) (fs : List (String × TypeRef))
    (vs : List (String × Option TypeRef)) (es : List TypeRef)
    (h : lookupReg reg name = some d0) :
    defineStruct reg name fs = .error (.duplicateDefinition name) ∧
    defineEnum reg name vs = .error (.duplicateDefinition name) ∧
    defineTuple reg name es = .error (.duplicateDefinition name) ∧
    lookupReg reg name = some d0 := by
  refine ⟨?_, ?_, ?_, h⟩ <;>
    simp [defineStruct, defineEnum, defineTuple, defineDescriptor, h]

/-- Witness for c5_duplicate_definition: redefining Point fails. -/
theorem c5_duplicate_definition_witness :
    lookupReg pointReg "Point" =
      some (.struct [("x", .prim .uint32), ("y", .prim .uint32)]) ∧
    defineStruct pointReg "Point" [] = .error (.duplicateDefinition "Point") ∧
    defineEnum pointReg "Point" [] = .error (.duplicateDefinition "Point") ∧
    defineTuple pointReg "Point" [] = .error (.duplicateDefinition "Point") := by
  have h : lookupReg pointReg "Point" =
      some (.struct [("x", .prim .uint32), ("y", .prim .uint32)]) := by
    simp [pointReg, lookupReg]
  have hc := c5_duplicate_definition pointReg "Point" _ [] [] [] h
  exact ⟨h, hc.1, hc.2.1, hc.2.2.1⟩

end Iroha

namespace Iroha

/-- C4: decoding an enum whose leading discriminant byte is at or beyond
the declared variant count fails with UnknownVariantError carrying that
discriminant; when the discriminant is in range, any successfully decoded
value's active variant is the one at that position in declared order. -/
theorem c4_discriminant_bound (reg : Registry) (fuel : Nat)
    (vs : List (String × Option TypeRef)) (b : Nat) (rest : Bytes) :
    (vs.length ≤ b →
      decodeDesc reg (fuel + 1) (.enum vs) (b :: rest) =
        .error (.unknownVariant b)) ∧
    (∀ h : b < vs.length, ∀ v rest2,
      decodeDesc reg (fuel + 1) (.enum vs) (b :: rest) = .ok (v, rest2) →
      ∃ p, v = .venum (vs.get ⟨b, h⟩).1 p) := by
  constructor
  · intro hb
    have hnone : vs[b]? = none := by
      simpa using hb
    simp [decodeDesc, hnone]
  · intro h v rest2 hdec
    rw [decodeDesc] at hdec
    have hsome : vs[b]? = some (vs.get ⟨b, h⟩) := by
      rw [List.getElem?_eq_getElem h, List.get_eq_getElem]
    rcases hvar : vs.get ⟨b, h⟩ with ⟨vn, pr⟩
    rw [hvar] at hsome
    simp only [List.get?_eq_getElem?, hsome] at hdec
    cases pr with
    | none =>
        simp only [Except.ok.injEq, Prod.mk.injEq] at hdec
        exact ⟨none, hdec.1.symm⟩
    | some r =>
        cases hpv : decodeRef reg fuel r rest with
        | error e =>
            simp only [hpv] at hdec
            exact Except.noConfusion hdec
        | ok pr2 =>
            rcases pr2 with ⟨pv, r2⟩
            simp only [hpv, Except.ok.injEq, Prod.mk.injEq] at hdec
            exact ⟨some pv, hdec.1.symm⟩

end Iroha

namespace Iroha

/-- Witness for c4_discriminant_bound on a two-variant enum: the
discriminant 5 is rejected with UnknownVariantError 5, and the in-range
discriminant 1 selects the second declared variant. -/
theorem c4_discriminant_bound_witness :
    ([("Red", none), ("Green", none)] : List (String × Option TypeRef)).length ≤ 5 ∧
    decodeDesc colorReg 1 (.enum [("Red", none), ("Green", none)]) [5, 7] =
      .error (.unknownVariant 5) ∧
    (∃ p, Value.venum "Green" none =
      .venum ((([("Red", none), ("Green", none)] :
        List (String × Option TypeRef)).get ⟨1, by decide⟩).1) p) := by
  refine ⟨by decide, ?_, ?_⟩
  · exact (c4_discriminant_bound colorReg 0 [("Red", none), ("Green", none)] 5 [7]).1
      (by decide)
  · exact (c4_discriminant_bound colorReg 0 [("Red", none), ("Green", none)] 1 [9]).2
      (by decide) (.venum "Green" none) [9] (by simp [decodeDesc])

/-- Registry resolution preserves the key set: an output name is present
exactly when the source name is. -/
theorem resolveEntries_keys (reg : Registry) :
    ∀ src out, resolveEntries reg src = .ok out →
      ∀ n, (lookupReg out n).isSome = (lookupReg src n).isSome := by
  intro src
  induction src with
  | nil =>
      intro out h n
      simp only [resolveEntries, Except.ok.injEq] at h
      subst h
      rfl
  | cons p rest ih =>
      obtain ⟨k, d⟩ := p
      intro out h n
      rw [resolveEntries] at h
      cases h1 : resolveDescriptor reg d with
      | error e => simp only [h1] at h; exact Except.noConfusion h
      | ok d2 =>
          simp only [h1] at h
          cases h2 : resolveEntries reg rest with
          | error e => simp only [h2] at h; exact Except.noConfusion h
          | ok rest2 =>
              simp only [h2, Except.ok.injEq] at h
              subst h
              by_cases hk : k = n
              · simp [lookupReg, hk]
              · simp [lookupReg, hk, ih rest2 h2 n]

/-- A TypeRef produced by a successful resolution resolves to itself in
any registry with the same key set. -/
theorem resolveRef_idem (reg reg2 : Registry)
    (hkeys : ∀ n, (lookupReg reg2 n).isSome = (lookupReg reg n).isSome) :
    ∀ r r2, resolveRef reg r = .ok r2 → resolveRef reg2 r2 = .ok r2 := by
  intro r r2 h
  cases r with
  | prim k =>
      simp only [resolveRef, Except.ok.injEq] at h
      subst h
      rfl
  | pending n =>
      rw [resolveRef] at h
      cases h1 : lookupReg reg n with
      | none => simp only [h1] at h; exact Except.noConfusion h
      | some d =>
          simp only [h1, Except.ok.injEq] at h
          subst h
          have h2 : (lookupReg reg2 n).isSome = true := by
            rw [hkeys n, h1]
            rfl
          rw [resolveRef]
          cases h3 : lookupReg reg2 n with
          | none => rw [h3] at h2; exact Bool.noConfusion h2
          | some d2 => rfl
  | resolved n =>
      rw [resolveRef] at h
      cases h1 : lookupReg reg n with
      | none => simp only [h1] at h; exact Except.noConfusion h
      | some d =>
          simp only [h1, Except.ok.injEq] at h
          subst h
          have h2 : (lookupReg reg2 n).isSome = true := by
            rw [hkeys n, h1]
            rfl
          rw [resolveRef]
          cases h3 : lookupReg reg2 n with
          | none => rw [h3] at h2; exact Bool.noConfusion h2
          | some d2 => rfl

/-- Resolved struct fields resolve to themselves in any registry with the
same key set. -/
theorem resolveFields_idem (reg reg2 : Registry)
    (hkeys : ∀ n, (lookupReg reg2 n).isSome = (lookupReg reg n).isSome) :
    ∀ fs fs2, resolveFields reg fs = .ok fs2 → resolveFields reg2 fs2 = .ok fs2 := by
  intro fs
  induction fs with
  | nil =>
      intro fs2 h
      simp only [resolveFields, Except.ok.injEq] at h
      subst h
      rfl
  | cons p rest ih =>
      obtain ⟨nm, r⟩ := p
      intro fs2 h
      rw [resolveFields] at h
      cases h1 : resolveRef reg r with
      | error e => simp only [h1] at h; exact Except.noConfusion h
      | ok r2 =>
          simp only [h1] at h
          cases h2 : resolveFields reg rest with
          | error e => simp only [h2] at h; exact Except.noConfusion h
          | ok rest2 =>
              simp only [h2, Except.ok.injEq] at h
              subst h
              simp only [resolveFields, resolveRef_idem reg reg2 hkeys r r2 h1,
                ih rest2 h2]

/-- Resolved enum variants resolve to themselves in any registry with the
same key set. -/
theorem resolveVariants_idem (reg reg2 : Registry)
    (hkeys : ∀ n, (lookupReg reg2 n).isSome = (lookupReg reg n).isSome) :
    ∀ vs vs2, resolveVariants reg vs = .ok vs2 → resolveVariants reg2 vs2 = .ok vs2 := by
  intro vs
  induction vs with
  | nil =>
      intro vs2 h
      simp only [resolveVariants, Except.ok.injEq] at h
      subst h
      rfl
  | cons p rest ih =>
      obtain ⟨nm, pr⟩ := p
      intro vs2 h
      cases pr with
      | none =>
          rw [resolveVariants] at h
          cases h2 : resolveVariants reg rest with
          | error e => simp only [h2] at h; exact Except.noConfusion h
          | ok rest2 =>
              simp only [h2, Except.ok.injEq] at h
              subst h
              simp only [resolveVariants, ih rest2 h2]
      | some r =>
          rw [resolveVariants] at h
          cases h1 : resolveRef reg r with
          | error e => simp only [h1] at h; exact Except.noConfusion h
          | ok r2 =>
              simp only [h1] at h
              cases h2 : resolveVariants reg rest with
              | error e => simp only [h2] at h; exact Except.noConfusion h
              | ok rest2 =>
                  simp only [h2, Except.ok.injEq] at h
                  subst h
                  simp only [resolveVariants, resolveRef_idem reg reg2 hkeys r r2 h1,
                    ih rest2 h2]

/-- Resolved tuple elements resolve to themselves in any registry with
the same key set. -/
theorem resolveElems_idem (reg reg2 : Registry)
    (hkeys : ∀ n, (lookupReg reg2 n).isSome = (lookupReg reg n).isSome) :
    ∀ es es2, resolveElems reg es = .ok es2 → resolveElems reg2 es2 = .ok es2 := by
  intro es
  induction es with
  | nil =>
      intro es2 h
      simp only [resolveElems, Except.ok.injEq] at h
      subst h
      rfl
  | cons r rest ih =>
      intro es2 h
      rw [resolveElems] at h
      cases h1 : resolveRef reg r with
      | error e => simp only [h1] at h; exact Except.noConfusion h
      | ok r2 =>
          simp only [h1] at h
          cases h2 : resolveElems reg rest with
          | error e => simp only [h2] at h; exact Except.noConfusion h
          | ok rest2 =>
              simp only [h2, Except.ok.injEq] at h
              subst h
              simp only [resolveElems, resolveRef_idem reg reg2 hkeys r r2 h1,
                ih rest2 h2]

/-- A resolved Descriptor resolves to itself in any registry with the
same key set. -/
theorem resolveDescriptor_idem (reg reg2 : Registry)
    (hkeys : ∀ n, (lookupReg reg2 n).isSome = (lookupReg reg n).isSome) :
    ∀ d d2, resolveDescriptor reg d = .ok d2 → resolveDescriptor reg2 d2 = .ok d2 := by
  intro d d2 h
  cases d with
  | struct fs =>
      rw [resolveDescriptor] at h
      cases h1 : resolveFields reg fs with
      | error e => simp only [h1] at h; exact Except.noConfusion h
      | ok fs2 =>
          simp only [h1, Except.ok.injEq] at h
          subst h
          simp only [resolveDescriptor, resolveFields_idem reg reg2 hkeys fs fs2 h1]
  | enum vs =>
      rw [resolveDescriptor] at h
      cases h1 : resolveVariants reg vs with
      | error e => simp only [h1] at h; exact Except.noConfusion h
      | ok vs2 =>
          simp only [h1, Except.ok.injEq] at h
          subst h
          simp only [resolveDescriptor, resolveVariants_idem reg reg2 hkeys vs vs2 h1]
  | tuple es =>
      rw [resolveDescriptor] at h
      cases h1 : resolveElems reg es with
      | error e => simp only [h1] at h; exact Except.noConfusion h
      | ok es2 =>
          simp only [h1, Except.ok.injEq] at h
          subst h
          simp only [resolveDescriptor, resolveElems_idem reg reg2 hkeys es es2 h1]

/-- A resolved entry list resolves to itself in any registry with the
same key set. -/
theorem resolveEntries_idem (reg reg2 : Registry)
    (hkeys : ∀ n, (lookupReg reg2 n).isSome = (lookupReg reg n).isSome) :
    ∀ src out, resolveEntries reg src = .ok out → resolveEntries reg2 out = .ok out := by
  intro src
  induction src with
  | nil =>
      intro out h
      simp only [resolveEntries, Except.ok.injEq] at h
      subst h
      rfl
  | cons p rest ih =>
      obtain ⟨k, d⟩ := p
      intro out h
      rw [resolveEntries] at h
      cases h1 : resolveDescriptor reg d with
      | error e => simp only [h1] at h; exact Except.noConfusion h
      | ok d2 =>
          simp only [h1] at h
          cases h2 : resolveEntries reg rest with
          | error e => simp only [h2] at h; exact Except.noConfusion h
          | ok rest2 =>
              simp only [h2, Except.ok.injEq] at h
              subst h
              simp only [resolveEntries, resolveDescriptor_idem reg reg2 hkeys d d2 h1,
                ih rest2 h2]

/-- C2: resolveAll is idempotent — when a Registry resolves successfully,
running resolveAll on the resolved Registry succeeds and returns it
unchanged. -/
theorem c2_resolve_all_idempotent (reg reg2 : Registry)
    (h : resolveAll reg = .ok reg2) : resolveAll reg2 = .ok reg2 := by
  have hkeys := resolveEntries_keys reg reg reg2 h
  exact resolveEntries_idem reg reg2 hkeys reg reg2 h

/-- Witness for c2_resolve_all_idempotent on the forward-reference
registry: A referencing B resolves, and resolving again is a no-op. -/
theorem c2_resolve_all_idempotent_witness :
    resolveAll forwardReg =
      .ok [("A", .struct [("b", .resolved "B")]), ("B", .tuple [])] ∧
    resolveAll [("A", .struct [("b", .resolved "B")]), ("B", .tuple [])] =
      .ok [("A", .struct [("b", .resolved "B")]), ("B", .tuple [])] := by
  have h : resolveAll forwardReg =
      .ok [("A", .struct [("b", .resolved "B")]), ("B", .tuple [])] := by
    simp [forwardReg, resolveAll, resolveEntries, resolveDescriptor, resolveFields,
      resolveElems, resolveRef, lookupReg]
  exact ⟨h, c2_resolve_all_idempotent forwardReg _ h⟩

end Iroha

namespace Iroha

/-- A failing TypeRef resolution always reports an UnresolvedTypeError
whose name is absent from the Registry. -/
theorem resolveRef_error (reg : Registry) :
    ∀ r e, resolveRef reg r = .error e →
      ∃ m, e = .unresolvedType m ∧ lookupReg reg m = none := by
  intro r e h
  cases r with
  | prim k => simp only [resolveRef] at h; exact Except.noConfusion h
  | pending n =>
      rw [resolveRef] at h
      cases h1 : lookupReg reg n with
      | none =>
          simp only [h1, Except.error.injEq] at h
          exact ⟨n, h.symm, h1⟩
      | some d => simp only [h1] at h; exact Except.noConfusion h
  | resolved n =>
      rw [resolveRef] at h
      cases h1 : lookupReg reg n with
      | none =>
          simp only [h1, Except.error.injEq] at h
          exact ⟨n, h.symm, h1⟩
      | some d => simp only [h1] at h; exact Except.noConfusion h

/-- A successful TypeRef resolution found every pending name it mentions. -/
theorem resolveRef_ok_pending (reg : Registry) :
    ∀ r r2, resolveRef reg r = .ok r2 →
      ∀ m, m ∈ refPending r → (lookupReg reg m).isSome := by
  intro r r2 h m hm
  cases r with
  | prim k => simp [refPending] at hm
  | pending n =>
      simp only [refPending, List.mem_singleton] at hm
      subst hm
      rw [resolveRef] at h
      cases h1 : lookupReg reg m with
      | none => simp only [h1] at h; exact Except.noConfusion h
      | some d => rfl
  | resolved n => simp [refPending] at hm

/-- A failing field-list resolution reports an absent name. -/
theorem resolveFields_error (reg : Registry) :
    ∀ fs e, resolveFields reg fs = .error e →
      ∃ m, e = .unresolvedType m ∧ lookupReg reg m = none := by
  intro fs
  induction fs with
  | nil => intro e h; simp only [resolveFields] at h; exact Except.noConfusion h
  | cons p rest ih =>
      obtain ⟨nm, r⟩ := p
      intro e h
      rw [resolveFields] at h
      cases h1 : resolveRef reg r with
      | error e1 =>
          simp only [h1, Except.error.injEq] at h
          subst h
          exact resolveRef_error reg r e1 h1
      | ok r2 =>
          simp only [h1] at h
          cases h2 : resolveFields reg rest with
          | error e2 =>
              simp only [h2, Except.error.injEq] at h
              subst h
              exact ih e2 h2
          | ok rest2 => simp only [h2] at h; exact Except.noConfusion h

/-- A successful field-list resolution found every pending name. -/
theorem resolveFields_ok_pending (reg : Registry) :
    ∀ fs fs2, resolveFields reg fs = .ok fs2 →
      ∀ m, m ∈ fieldsPending fs → (lookupReg reg m).isSome := by
  intro fs
  induction fs with
  | nil => intro fs2 h m hm; simp [fieldsPending] at hm
  | cons p rest ih =>
      obtain ⟨nm, r⟩ := p
      intro fs2 h m hm
      rw [resolveFields] at h
      cases h1 : resolveRef reg r with
      | error e => simp only [h1] at h; exact Except.noConfusion h
      | ok r2 =>
          simp only [h1] at h
          cases h2 : resolveFields reg rest with
          | error e => simp only [h2] at h; exact Except.noConfusion h
          | ok rest2 =>
              simp only [fieldsPending, List.mem_append] at hm
              cases hm with
              | inl hm1 => exact resolveRef_ok_pending reg r r2 h1 m hm1
              | inr hm2 => exact ih rest2 h2 m hm2

/-- A failing variant-list resolution reports an absent name. -/
theorem resolveVariants_error (reg : Registry) :
    ∀ vs e, resolveVariants reg vs = .error e →
      ∃ m, e = .unresolvedType m ∧ lookupReg reg m = none := by
  intro vs
  induction vs with
  | nil => intro e h; simp only [resolveVariants] at h; exact Except.noConfusion h
  | cons p rest ih =>
      obtain ⟨nm, pr⟩ := p
      intro e h
      cases pr with
      | none =>
          rw [resolveVariants] at h
          cases h2 : resolveVariants reg rest with
          | error e2 =>
              simp only [h2, Except.error.injEq] at h
              subst h
              exact ih e2 h2
          | ok rest2 => simp only [h2] at h; exact Except.noConfusion h
      | some r =>
          rw [resolveVariants] at h
          cases h1 : resolveRef reg r with
          | error e1 =>
              simp only [h1, Except.error.injEq] at h
              subst h
              exact resolveRef_error reg r e1 h1
          | ok r2 =>
              simp only [h1] at h
              cases h2 : resolveVariants reg rest with
              | error e2 =>
                  simp only [h2, Except.error.injEq] at h
                  subst h
                  exact ih e2 h2
              | ok rest2 => simp only [h2] at h; exact Except.noConfusion h

/-- A successful variant-list resolution found every pending name. -/
theorem resolveVariants_ok_pending (reg : Registry) :
    ∀ vs vs2, resolveVariants reg vs = .ok vs2 →
      ∀ m, m ∈ variantsPending vs → (lookupReg reg m).isSome := by
  intro vs
  induction vs with
  | nil => intro vs2 h m hm; simp [variantsPending] at hm
  | cons p rest ih =>
      obtain ⟨nm, pr⟩ := p
      intro vs2 h m hm
      cases pr with
      | none =>
          rw [resolveVariants] at h
          cases h2 : resolveVariants reg rest with
          | error e => simp only [h2] at h; exact Except.noConfusion h
          | ok rest2 =>
              simp only [variantsPending] at hm
              exact ih rest2 h2 m hm
      | some r =>
          rw [resolveVariants] at h
          cases h1 : resolveRef reg r with
          | error e => simp only [h1] at h; exact Except.noConfusion h
          | ok r2 =>
              simp only [h1] at h
              cases h2 : resolveVariants reg rest with
              | error e => simp only [h2] at h; exact Except.noConfusion h
              | ok rest2 =>
                  simp only [variantsPending, List.mem_append] at hm
                  cases hm with
                  | inl hm1 => exact resolveRef_ok_pending reg r r2 h1 m hm1
                  | inr hm2 => exact ih rest2 h2 m hm2

/-- A failing element-list resolution reports an absent name. -/
theorem resolveElems_error (reg : Registry) :
    ∀ es e, resolveElems reg es = .error e →
      ∃ m, e = .unresolvedType m ∧ lookupReg reg m = none := by
  intro es
  induction es with
  | nil => intro e h; simp only [resolveElems] at h; exact Except.noConfusion h
  | cons r rest ih =>
      intro e h
      rw [resolveElems] at h
      cases h1 : resolveRef reg r with
      | error e1 =>
          simp only [h1, Except.error.injEq] at h
          subst h
          exact resolveRef_error reg r e1 h1
      | ok r2 =>
          simp only [h1] at h
          cases h2 : resolveElems reg rest with
          | error e2 =>
              simp only [h2, Except.error.injEq] at h
              subst h
              exact ih e2 h2
          | ok rest2 => simp only [h2] at h; exact Except.noConfusion h

/-- A successful element-list resolution found every pending name. -/
theorem resolveElems_ok_pending (reg : Registry) :
    ∀ es es2, resolveElems reg es = .ok es2 →
      ∀ m, m ∈ elemsPending es → (lookupReg reg m).isSome := by
  intro es
  induction es with
  | nil => intro es2 h m hm; simp [elemsPending] at hm
  | cons r rest ih =>
      intro es2 h m hm
      rw [resolveElems] at h
      cases h1 : resolveRef reg r with
      | error e => simp only [h1] at h; exact Except.noConfusion h
      | ok r2 =>
          simp only [h1] at h
          cases h2 : resolveElems reg rest with
          | error e => simp only [h2] at h; exact Except.noConfusion h
          | ok rest2 =>
              simp only [elemsPending, List.mem_append] at hm
              cases hm with
              | inl hm1 => exact resolveRef_ok_pending reg r r2 h1 m hm1
              | inr hm2 => exact ih rest2 h2 m hm2

/-- A failing Descriptor resolution reports an absent name. -/
theorem resolveDescriptor_error (reg : Registry) :
    ∀ d e, resolveDescriptor reg d = .error e →
      ∃ m, e = .unresolvedType m ∧ lookupReg reg m = none := by
  intro d e h
  cases d with
  | struct fs =>
      rw [resolveDescriptor] at h
      cases h1 : resolveFields reg fs with
      | error e1 =>
          simp only [h1, Except.error.injEq] at h
          subst h
          exact resolveFields_error reg fs e1 h1
      | ok fs2 => simp only [h1] at h; exact Except.noConfusion h
  | enum vs =>
      rw [resolveDescriptor] at h
      cases h1 : resolveVariants reg vs with
      | error e1 =>
          simp only [h1, Except.error.injEq] at h
          subst h
          exact resolveVariants_error reg vs e1 h1
      | ok vs2 => simp only [h1] at h; exact Except.noConfusion h
  | tuple es =>
      rw [resolveDescriptor] at h
      cases h1 : resolveElems reg es with
      | error e1 =>
          simp only [h1, Except.error.injEq] at h
          subst h
          exact resolveElems_error reg es e1 h1
      | ok es2 => simp only [h1] at h; exact Except.noConfusion h

/-- A successful Descriptor resolution found every pending name. -/
theorem resolveDescriptor_ok_pending (reg : Registry) :
    ∀ d d2, resolveDescriptor reg d = .ok d2 →
      ∀ m, m ∈ descPending d → (lookupReg reg m).isSome := by
  intro d d2 h m hm
  cases d with
  | struct fs =>
      rw [resolveDescriptor] at h
      cases h1 : resolveFields reg fs with
      | error e => simp only [h1] at h; exact Except.noConfusion h
      | ok fs2 =>
          simp only [descPending] at hm
          exact resolveFields_ok_pending reg fs fs2 h1 m hm
  | enum vs =>
      rw [resolveDescriptor] at h
      cases h1 : resolveVariants reg vs with
      | error e => simp only [h1] at h; exact Except.noConfusion h
      | ok vs2 =>
          simp only [descPending] at hm
          exact resolveVariants_ok_pending reg vs vs2 h1 m hm
  | tuple es =>
      rw [resolveDescriptor] at h
      cases h1 : resolveElems reg es with
      | error e => simp only [h1] at h; exact Except.noConfusion h
      | ok es2 =>
          simp only [descPending] at hm
          exact resolveElems_ok_pending reg es es2 h1 m hm

/-- A failing entry-list resolution reports an absent name. -/
theorem resolveEntries_error (reg : Registry) :
    ∀ src e, resolveEntries reg src = .error e →
      ∃ m, e = .unresolvedType m ∧ lookupReg reg m = none := by
  intro src
  induction src with
  | nil => intro e h; simp only [resolveEntries] at h; exact Except.noConfusion h
  | cons p rest ih =>
      obtain ⟨k, d⟩ := p
      intro e h
      rw [resolveEntries] at h
      cases h1 : resolveDescriptor reg d with
      | error e1 =>
          simp only [h1, Except.error.injEq] at h
          subst h
          exact resolveDescriptor_error reg d e1 h1
      | ok d2 =>
          simp only [h1] at h
          cases h2 : resolveEntries reg rest with
          | error e2 =>
              simp only [h2, Except.error.injEq] at h
              subst h
              exact ih e2 h2
          | ok rest2 => simp only [h2] at h; exact Except.noConfusion h

/-- A successful entry-list resolution found every pending name reachable
from the entries. -/
theorem resolveEntries_ok_pending (reg : Registry) :
    ∀ src out, resolveEntries reg src = .ok out →
      ∀ m, m ∈ regPending src → (lookupReg reg m).isSome := by
  intro src
  induction src with
  | nil => intro out h m hm; simp [regPending] at hm
  | cons p rest ih =>
      obtain ⟨k, d⟩ := p
      intro out h m hm
      rw [resolveEntries] at h
      cases h1 : resolveDescriptor reg d with
      | error e => simp only [h1] at h; exact Except.noConfusion h
      | ok d2 =>
          simp only [h1] at h
          cases h2 : resolveEntries reg rest with
          | error e => simp only [h2] at h; exact Except.noConfusion h
          | ok rest2 =>
              simp only [regPending, List.mem_append] at hm
              cases hm with
              | inl hm1 => exact resolveDescriptor_ok_pending reg d d2 h1 m hm1
              | inr hm2 => exact ih rest2 h2 m hm2

/-- C3: when some PendingRef reachable from the Registry names an absent
TypeName, resolveAll fails with an UnresolvedTypeError carrying a missing
name; no resolved Registry is produced for the load unit, so no
registered Descriptor is left partially resolved. -/
theorem c3_unresolved_reference (reg : Registry)
    (h : ∃ m, m ∈ regPending reg ∧ lookupReg reg m = none) :
    ∃ m2, resolveAll reg = .error (.unresolvedType m2) ∧
      lookupReg reg m2 = none := by
  obtain ⟨m, hmem, hnone⟩ := h
  cases hres : resolveAll reg with
  | ok out =>
      have hs := resolveEntries_ok_pending reg reg out hres m hmem
      rw [hnone] at hs
      exact Bool.noConfusion hs
  | error e =>
      obtain ⟨m2, he, hn2⟩ := resolveEntries_error reg reg e hres
      subst he
      exact ⟨m2, rfl, hn2⟩

/-- Witness for c3_unresolved_reference: the registry declaring A with a
dangling reference to the never-declared Z fails with
UnresolvedTypeError Z. -/
theorem c3_unresolved_reference_witness :
    ("Z" ∈ regPending danglingReg ∧ lookupReg danglingReg "Z" = none) ∧
    (∃ m2, resolveAll danglingReg = .error (.unresolvedType m2) ∧
      lookupReg danglingReg m2 = none) := by
  refine ⟨⟨by decide, by decide⟩, ?_⟩
  exact c3_unresolved_reference danglingReg ⟨"Z", by decide, by decide⟩

end Iroha

namespace Iroha

/-- Little-endian recomposition inverts decomposition below 2^32. -/
theorem u32val_u32bytes (n : Nat) (h : n < 4294967296) :
    u32val (n % 256) (n / 256 % 256) (n / 65536 % 256) (n / 16777216 % 256) = n := by
  simp only [u32val]
  omega

/-- findVariant reports the position of the name in declared order. -/
theorem findVariant_get (vs : List (String × Option TypeRef)) :
    ∀ name i pr, findVariant vs name = some (i, pr) →
      vs.get? i = some (name, pr) := by
  induction vs with
  | nil => intro name i pr h; simp [findVariant] at h
  | cons p rest ih =>
      obtain ⟨vn, pp⟩ := p
      intro name i pr h
      rw [findVariant] at h
      by_cases hv : vn = name
      · rw [if_pos hv] at h
        simp only [Option.some.injEq, Prod.mk.injEq] at h
        obtain ⟨hi, hpr⟩ := h
        subst hi
        subst hpr
        subst hv
        rfl
      · rw [if_neg hv] at h
        cases hrest : findVariant rest name with
        | none => rw [hrest] at h; simp at h
        | some jp =>
            obtain ⟨j, pj⟩ := jp
            rw [hrest] at h
            simp only [Option.map_some', Option.some.injEq, Prod.mk.injEq] at h
            obtain ⟨hi, hpr⟩ := h
            subst hpr
            have hj := ih name j pj hrest
            rw [← hi]
            simpa using hj

/-- Shape validation success implies encoding success, graded by value
size for the mutual induction. -/
theorem validate_encode_bound (reg : Registry) : ∀ N : Nat,
    (∀ d v, sizeOf v ≤ N → validateDesc reg d v = .ok () →
      ∃ bs, encodeDesc reg d v = .ok bs) ∧
    (∀ r v, sizeOf v ≤ N → validateRef reg r v = .ok () →
      ∃ bs, encodeRef reg r v = .ok bs) ∧
    (∀ fs fvs, sizeOf fvs ≤ N → validateFields reg fs fvs = .ok () →
      ∃ bs, encodeFields reg fs fvs = .ok bs) ∧
    (∀ es xs, sizeOf xs ≤ N → validateElems reg es xs = .ok () →
      ∃ bs, encodeElems reg es xs = .ok bs) := by
  intro N
  induction N using Nat.strong_induction_on with
  | _ N ih =>
  have hdesc : ∀ d v, sizeOf v ≤ N → validateDesc reg d v = .ok () →
      ∃ bs, encodeDesc reg d v = .ok bs := by
    intro d v hsz hval
    cases d with
    | struct fs =>
        cases v with
        | vstruct fvs =>
            rw [validateDesc] at hval
            have hlt : sizeOf fvs < N := by
              have hs : sizeOf (Value.vstruct fvs) = 1 + sizeOf fvs :=
                Value.vstruct.sizeOf_spec fvs
              omega
            obtain ⟨bs, hbs⟩ := (ih (sizeOf fvs) hlt).2.2.1 fs fvs le_rfl hval
            exact ⟨bs, by simp only [encodeDesc]; exact hbs⟩
        | vuint32 k => simp [validateDesc] at hval
        | venum nm p => simp [validateDesc] at hval
        | vtuple xs => simp [validateDesc] at hval
    | enum vs =>
        cases v with
        | venum name payload =>
            rw [validateDesc] at hval
            cases hf : findVariant vs name with
            | none => simp only [hf] at hval; exact Except.noConfusion hval
            | some ip =>
                obtain ⟨i, pr⟩ := ip
                simp only [hf] at hval
                cases pr with
                | none =>
                    cases payload with
                    | none =>
                        by_cases hi : i < 256
                        · exact ⟨[i], by simp only [encodeDesc, hf]; simp [hi]⟩
                        · simp only [if_neg hi] at hval; exact Except.noConfusion hval
                    | some pv => exact Except.noConfusion hval
                | some r =>
                    cases payload with
                    | none => exact Except.noConfusion hval
                    | some pv =>
                        cases hv1 : validateRef reg r pv with
                        | error e => simp only [hv1] at hval; exact Except.noConfusion hval
                        | ok u =>
                            cases u
                            simp only [hv1] at hval
                            by_cases hi : i < 256
                            · have hlt : sizeOf pv < N := by
                                have hs : sizeOf (Value.venum name (some pv)) =
                                    1 + sizeOf name + sizeOf (some pv) :=
                                  Value.venum.sizeOf_spec name (some pv)
                                have ho : sizeOf (some pv) = 1 + sizeOf pv :=
                                  Option.some.sizeOf_spec pv
                                omega
                              obtain ⟨pb, hpb⟩ :=
                                (ih (sizeOf pv) hlt).2.1 r pv le_rfl hv1
                              exact ⟨i :: pb, by
                                simp only [encodeDesc, hf, hpb]
                                simp [hi]⟩
                            · simp only [if_neg hi] at hval; exact Except.noConfusion hval
        | vuint32 k => simp [validateDesc] at hval
        | vstruct fvs => simp [validateDesc] at hval
        | vtuple xs => simp [validateDesc] at hval
    | tuple es =>
        cases v with
        | vtuple xs =>
            rw [validateDesc] at hval
            have hlt : sizeOf xs < N := by
              have hs : sizeOf (Value.vtuple xs) = 1 + sizeOf xs :=
                Value.vtuple.sizeOf_spec xs
              omega
            obtain ⟨bs, hbs⟩ := (ih (sizeOf xs) hlt).2.2.2 es xs le_rfl hval
            exact ⟨bs, by simp only [encodeDesc]; exact hbs⟩
        | vuint32 k => simp [validateDesc] at hval
        | venum nm p => simp [validateDesc] at hval
        | vstruct fvs => simp [validateDesc] at hval
  have href : ∀ r v, sizeOf v ≤ N → validateRef reg r v = .ok () →
      ∃ bs, encodeRef reg r v = .ok bs := by
    intro r v hsz hval
    cases r with
    | prim k =>
        cases k
        cases v with
        | vuint32 n =>
            by_cases hn : n < 4294967296
            · exact ⟨u32bytes n, by simp [encodeRef, hn]⟩
            · simp [validateRef, hn] at hval
        | vstruct fvs => simp [validateRef] at hval
        | venum nm p => simp [validateRef] at hval
        | vtuple xs => simp [validateRef] at hval
    | pending n => simp [validateRef] at hval
    | resolved n =>
        rw [validateRef] at hval
        cases hl : lookupReg reg n with
        | none => simp only [hl] at hval; exact Except.noConfusion hval
        | some d =>
            simp only [hl] at hval
            obtain ⟨bs, hbs⟩ := hdesc d v hsz hval
            exact ⟨bs, by simp only [encodeRef, hl]; exact hbs⟩
  have hfields : ∀ fs fvs, sizeOf fvs ≤ N → validateFields reg fs fvs = .ok () →
      ∃ bs, encodeFields reg fs fvs = .ok bs := by
    intro fs fvs hsz hval
    cases fs with
    | nil =>
        cases fvs with
        | nil => exact ⟨[], by simp [encodeFields]⟩
        | cons q fvs2 => obtain ⟨vn, v⟩ := q; simp [validateFields] at hval
    | cons p fs2 =>
        obtain ⟨fn, r⟩ := p
        cases fvs with
        | nil => simp [validateFields] at hval
        | cons q fvs2 =>
            obtain ⟨vn, v⟩ := q
            rw [validateFields] at hval
            by_cases hfn : fn = vn
            · rw [if_pos hfn] at hval
              cases hv1 : validateRef reg r v with
              | error e => simp only [hv1] at hval; exact Except.noConfusion hval
              | ok u =>
                  cases u
                  simp only [hv1] at hval
                  have hlt1 : sizeOf v < N := by
                    have hc : sizeOf ((vn, v) :: fvs2) =
                        1 + sizeOf (vn, v) + sizeOf fvs2 :=
                      List.cons.sizeOf_spec (vn, v) fvs2
                    have hp : sizeOf (vn, v) = 1 + sizeOf vn + sizeOf v :=
                      Prod.mk.sizeOf_spec vn v
                    omega
                  have hlt2 : sizeOf fvs2 < N := by
                    have hc : sizeOf ((vn, v) :: fvs2) =
                        1 + sizeOf (vn, v) + sizeOf fvs2 :=
                      List.cons.sizeOf_spec (vn, v) fvs2
                    omega
                  obtain ⟨b1, hb1⟩ := (ih (sizeOf v) hlt1).2.1 r v le_rfl hv1
                  obtain ⟨b2, hb2⟩ :=
                    (ih (sizeOf fvs2) hlt2).2.2.1 fs2 fvs2 le_rfl hval
                  exact ⟨b1 ++ b2, by
                    simp only [encodeFields, if_pos hfn, hb1, hb2]⟩
            · rw [if_neg hfn] at hval
              exact Except.noConfusion hval
  have helems : ∀ es xs, sizeOf xs ≤ N → validateElems reg es xs = .ok () →
      ∃ bs, encodeElems reg es xs = .ok bs := by
    intro es xs hsz hval
    cases es with
    | nil =>
        cases xs with
        | nil => exact ⟨[], by simp [encodeElems]⟩
        | cons x xs2 => simp [validateElems] at hval
    | cons r es2 =>
        cases xs with
        | nil => simp [validateElems] at hval
        | cons x xs2 =>
            rw [validateElems] at hval
            cases hv1 : validateRef reg r x with
            | error e => simp only [hv1] at hval; exact Except.noConfusion hval
            | ok u =>
                cases u
                simp only [hv1] at hval
                have hlt1 : sizeOf x < N := by
                  have hc : sizeOf (x :: xs2) = 1 + sizeOf x + sizeOf xs2 :=
                    List.cons.sizeOf_spec x xs2
                  omega
                have hlt2 : sizeOf xs2 < N := by
                  have hc : sizeOf (x :: xs2) = 1 + sizeOf x + sizeOf xs2 :=
                    List.cons.sizeOf_spec x xs2
                  omega
                obtain ⟨b1, hb1⟩ := (ih (sizeOf x) hlt1).2.1 r x le_rfl hv1
                obtain ⟨b2, hb2⟩ :=
                  (ih (sizeOf xs2) hlt2).2.2.2 es2 xs2 le_rfl hval
                exact ⟨b1 ++ b2, by simp only [encodeElems, hb1, hb2]⟩
  exact ⟨hdesc, href, hfields, helems⟩

/-- Shape validation success implies encoding success. -/
theorem validate_encode (reg : Registry) (r : TypeRef) (v : Value)
    (h : validateRef reg r v = .ok ()) : ∃ bs, encodeRef reg r v = .ok bs :=
  (validate_encode_bound reg (sizeOf v)).2.1 r v le_rfl h

end Iroha

namespace Iroha

/-- Decoding inverts encoding, graded by value size for the mutual
induction: whatever encodeRef emitted decodes back to the same Value with
any fuel at or above the computed requirement, leaving the appended rest
untouched. -/
theorem encode_decode_bound (reg : Registry) : ∀ N : Nat,
    (∀ d v bs, sizeOf v ≤ N → encodeDesc reg d v = .ok bs →
      ∀ fuel, needDesc reg d v ≤ fuel →
        ∀ rest, decodeDesc reg fuel d (bs ++ rest) = .ok (v, rest)) ∧
    (∀ r v bs, sizeOf v ≤ N → encodeRef reg r v = .ok bs →
      ∀ fuel, needRef reg r v ≤ fuel →
        ∀ rest, decodeRef reg fuel r (bs ++ rest) = .ok (v, rest)) ∧
    (∀ fs fvs bs, sizeOf fvs ≤ N → encodeFields reg fs fvs = .ok bs →
      ∀ fuel, needFields reg fs fvs ≤ fuel →
        ∀ rest, decodeFields reg fuel fs (bs ++ rest) = .ok (fvs, rest)) ∧
    (∀ es xs bs, sizeOf xs ≤ N → encodeElems reg es xs = .ok bs →
      ∀ fuel, needElems reg es xs ≤ fuel →
        ∀ rest, decodeElems reg fuel es (bs ++ rest) = .ok (xs, rest)) := by
  intro N
  induction N using Nat.strong_induction_on with
  | _ N ih =>
  have hdesc : ∀ d v bs, sizeOf v ≤ N → encodeDesc reg d v = .ok bs →
      ∀ fuel, needDesc reg d v ≤ fuel →
        ∀ rest, decodeDesc reg fuel d (bs ++ rest) = .ok (v, rest) := by
    intro d v bs hsz henc fuel hfuel rest
    cases d with
    | struct fs =>
        cases v with
        | vstruct fvs =>
            rw [encodeDesc] at henc
            simp only [needDesc] at hfuel
            cases fuel with
            | zero => omega
            | succ f =>
                have hlt : sizeOf fvs < N := by
                  have hs : sizeOf (Value.vstruct fvs) = 1 + sizeOf fvs :=
                    Value.vstruct.sizeOf_spec fvs
                  omega
                have hf2 : needFields reg fs fvs ≤ f := by omega
                have hdf := (ih (sizeOf fvs) hlt).2.2.1 fs fvs bs le_rfl henc f hf2 rest
                simp only [decodeDesc, hdf]
        | vuint32 k => simp [encodeDesc] at henc
        | venum nm p => simp [encodeDesc] at henc
        | vtuple xs => simp [encodeDesc] at henc
    | enum vs =>
        cases v with
        | venum name payload =>
            rw [encodeDesc] at henc
            cases hf : findVariant vs name with
            | none => simp only [hf] at henc; exact Except.noConfusion henc
            | some ip =>
                obtain ⟨i, pr⟩ := ip
                cases pr with
                | none =>
                    cases payload with
                    | some pv =>
                        rw [hf] at henc
                        dsimp only at henc
                        exact Except.noConfusion henc
                    | none =>
                        rw [hf] at henc
                        dsimp only at henc
                        by_cases hi : i < 256
                        · rw [if_pos hi] at henc
                          simp only [Except.ok.injEq] at henc
                          subst henc
                          have hneed : needDesc reg (.enum vs) (.venum name none) = 1 := by
                            rw [needDesc, hf]
                          rw [hneed] at hfuel
                          cases fuel with
                          | zero => omega
                          | succ f =>
                              have hg := findVariant_get vs name i none hf
                              simp only [List.cons_append, List.nil_append]
                              rw [decodeDesc, hg]
                        · rw [if_neg hi] at henc
                          exact Except.noConfusion henc
                | some r =>
                    cases payload with
                    | none =>
                        rw [hf] at henc
                        dsimp only at henc
                        exact Except.noConfusion henc
                    | some pv =>
                        rw [hf] at henc
                        dsimp only at henc
                        cases he1 : encodeRef reg r pv with
                        | error e =>
                            rw [he1] at henc
                            exact Except.noConfusion henc
                        | ok pb =>
                            rw [he1] at henc
                            dsimp only at henc
                            by_cases hi : i < 256
                            · rw [if_pos hi] at henc
                              simp only [Except.ok.injEq] at henc
                              subst henc
                              have hneed : needDesc reg (.enum vs) (.venum name (some pv)) =
                                  needRef reg r pv + 1 := by
                                rw [needDesc, hf]
                              rw [hneed] at hfuel
                              cases fuel with
                              | zero => omega
                              | succ f =>
                                  have hlt : sizeOf pv < N := by
                                    have hs : sizeOf (Value.venum name (some pv)) =
                                        1 + sizeOf name + sizeOf (some pv) :=
                                      Value.venum.sizeOf_spec name (some pv)
                                    have ho : sizeOf (some pv) = 1 + sizeOf pv :=
                                      Option.some.sizeOf_spec pv
                                    omega
                                  have hf2 : needRef reg r pv ≤ f := by omega
                                  have hdr := (ih (sizeOf pv) hlt).2.1 r pv pb
                                    le_rfl he1 f hf2 rest
                                  have hg := findVariant_get vs name i (some r) hf
                                  simp only [List.cons_append]
                                  rw [decodeDesc, hg]
                                  dsimp only
                                  rw [hdr]
                            · rw [if_neg hi] at henc
                              exact Except.noConfusion henc
        | vuint32 k => simp [encodeDesc] at henc
        | vstruct fvs => simp [encodeDesc] at henc
        | vtuple xs => simp [encodeDesc] at henc
    | tuple es =>
        cases v with
        | vtuple xs =>
            rw [encodeDesc] at henc
            simp only [needDesc] at hfuel
            cases fuel with
            | zero => omega
            | succ f =>
                have hlt : sizeOf xs < N := by
                  have hs : sizeOf (Value.vtuple xs) = 1 + sizeOf xs :=
                    Value.vtuple.sizeOf_spec xs
                  omega
                have hf2 : needElems reg es xs ≤ f := by omega
                have hde := (ih (sizeOf xs) hlt).2.2.2 es xs bs le_rfl henc f hf2 rest
                simp only [decodeDesc, hde]
        | vuint32 k => simp [encodeDesc] at henc
        | venum nm p => simp [encodeDesc] at henc
        | vstruct fvs => simp [encodeDesc] at henc
  have href : ∀ r v bs, sizeOf v ≤ N → encodeRef reg r v = .ok bs →
      ∀ fuel, needRef reg r v ≤ fuel →
        ∀ rest, decodeRef reg fuel r (bs ++ rest) = .ok (v, rest) := by
    intro r v bs hsz henc fuel hfuel rest
    cases r with
    | prim k =>
        cases k
        cases v with
        | vuint32 n =>
            rw [encodeRef] at henc
            by_cases hn : n < 4294967296
            · rw [if_pos hn] at henc
              simp only [Except.ok.injEq] at henc
              subst henc
              simp only [needRef] at hfuel
              cases fuel with
              | zero => omega
              | succ f =>
                  simp only [u32bytes, List.cons_append, List.nil_append]
                  rw [decodeRef]
                  rw [u32val_u32bytes n hn]
            · rw [if_neg hn] at henc
              exact Except.noConfusion henc
        | vstruct fvs => simp [encodeRef] at henc
        | venum nm p => simp [encodeRef] at henc
        | vtuple xs => simp [encodeRef] at henc
    | pending n => simp [encodeRef] at henc
    | resolved n =>
        rw [encodeRef] at henc
        cases hl : lookupReg reg n with
        | none => simp only [hl] at henc; exact Except.noConfusion henc
        | some d =>
            simp only [hl] at henc
            simp only [needRef, hl] at hfuel
            cases fuel with
            | zero => omega
            | succ f =>
                have hf2 : needDesc reg d v ≤ f := by omega
                have hdd := hdesc d v bs hsz henc f hf2 rest
                simp only [decodeRef, hl, hdd]
  have hfields : ∀ fs fvs bs, sizeOf fvs ≤ N → encodeFields reg fs fvs = .ok bs →
      ∀ fuel, needFields reg fs fvs ≤ fuel →
        ∀ rest, decodeFields reg fuel fs (bs ++ rest) = .ok (fvs, rest) := by
    intro fs fvs bs hsz henc fuel hfuel rest
    cases fs with
    | nil =>
        cases fvs with
        | cons q fvs2 => obtain ⟨vn, v⟩ := q; simp [encodeFields] at henc
        | nil =>
            rw [encodeFields] at henc
            simp only [Except.ok.injEq] at henc
            subst henc
            simp only [needFields] at hfuel
            cases fuel with
            | zero => omega
            | succ f =>
                simp only [List.nil_append]
                rw [decodeFields]
    | cons p fs2 =>
        obtain ⟨fn, r⟩ := p
        cases fvs with
        | nil => simp [encodeFields] at henc
        | cons q fvs2 =>
            obtain ⟨vn, v⟩ := q
            rw [encodeFields] at henc
            by_cases hfn : fn = vn
            · rw [if_pos hfn] at henc
              cases he1 : encodeRef reg r v with
              | error e => simp only [he1] at henc; exact Except.noConfusion henc
              | ok b1 =>
                  simp only [he1] at henc
                  cases he2 : encodeFields reg fs2 fvs2 with
                  | error e => simp only [he2] at henc; exact Except.noConfusion henc
                  | ok b2 =>
                      simp only [he2, Except.ok.injEq] at henc
                      subst henc
                      simp only [needFields] at hfuel
                      cases fuel with
                      | zero => omega
                      | succ f =>
                          have hlt1 : sizeOf v < N := by
                            have hc : sizeOf ((vn, v) :: fvs2) =
                                1 + sizeOf (vn, v) + sizeOf fvs2 :=
                              List.cons.sizeOf_spec (vn, v) fvs2
                            have hp : sizeOf (vn, v) = 1 + sizeOf vn + sizeOf v :=
                              Prod.mk.sizeOf_spec vn v
                            omega
                          have hlt2 : sizeOf fvs2 < N := by
                            have hc : sizeOf ((vn, v) :: fvs2) =
                                1 + sizeOf (vn, v) + sizeOf fvs2 :=
                              List.cons.sizeOf_spec (vn, v) fvs2
                            omega
                          have hle1 : needRef reg r v ≤ f := by omega
                          have hle2 : needFields reg fs2 fvs2 ≤ f := by omega
                          have hd1 := (ih (sizeOf v) hlt1).2.1 r v b1
                            le_rfl he1 f hle1 (b2 ++ rest)
                          have hd2 := (ih (sizeOf fvs2) hlt2).2.2.1 fs2 fvs2 b2
                            le_rfl he2 f hle2 rest
                          rw [List.append_assoc]
                          rw [decodeFields]
                          simp only [hd1, hd2, hfn]
            · rw [if_neg hfn] at henc
              exact Except.noConfusion henc
  have helems : ∀ es xs bs, sizeOf xs ≤ N → encodeElems reg es xs = .ok bs →
      ∀ fuel, needElems reg es xs ≤ fuel →
        ∀ rest, decodeElems reg fuel es (bs ++ rest) = .ok (xs, rest) := by
    intro es xs bs hsz henc fuel hfuel rest
    cases es with
    | nil =>
        cases xs with
        | cons x xs2 => simp [encodeElems] at henc
        | nil =>
            rw [encodeElems] at henc
            simp only [Except.ok.injEq] at henc
            subst henc
            simp only [needElems] at hfuel
            cases fuel with
            | zero => omega
            | succ f =>
                simp only [List.nil_append]
                rw [decodeElems]
    | cons r es2 =>
        cases xs with
        | nil => simp [encodeElems] at henc
        | cons x xs2 =>
            rw [encodeElems] at henc
            cases he1 : encodeRef reg r x with
            | error e => simp only [he1] at henc; exact Except.noConfusion henc
            | ok b1 =>
                simp only [he1] at henc
                cases he2 : encodeElems reg es2 xs2 with
                | error e => simp only [he2] at henc; exact Except.noConfusion henc
                | ok b2 =>
                    simp only [he2, Except.ok.injEq] at henc
                    subst henc
                    simp only [needElems] at hfuel
                    cases fuel with
                    | zero => omega
                    | succ f =>
                        have hlt1 : sizeOf x < N := by
                          have hc : sizeOf (x :: xs2) = 1 + sizeOf x + sizeOf xs2 :=
                            List.cons.sizeOf_spec x xs2
                          omega
                        have hlt2 : sizeOf xs2 < N := by
                          have hc : sizeOf (x :: xs2) = 1 + sizeOf x + sizeOf xs2 :=
                            List.cons.sizeOf_spec x xs2
                          omega
                        have hle1 : needRef reg r x ≤ f := by omega
                        have hle2 : needElems reg es2 xs2 ≤ f := by omega
                        have hd1 := (ih (sizeOf x) hlt1).2.1 r x b1
                          le_rfl he1 f hle1 (b2 ++ rest)
                        have hd2 := (ih (sizeOf xs2) hlt2).2.2.2 es2 xs2 b2
                          le_rfl he2 f hle2 rest
                        rw [List.append_assoc]
                        rw [decodeElems]
                        simp only [hd1, hd2]
  exact ⟨hdesc, href, hfields, helems⟩

end Iroha

namespace Iroha

/-- C1: encode and decode are inverse on validly constructed Values — a
Value passing construction-time validation always encodes, and decoding
the encoded bytes (with enough fuel for the fuelled decoder) returns the
same Value exactly, consuming the whole stream. -/
theorem c1_round_trip (reg : Registry) (r : TypeRef) (v : Value)
    (h : validateRef reg r v = .ok ()) :
    ∃ bs, encodeRef reg r v = .ok bs ∧
      ∃ fuel, decode reg fuel r bs = .ok v := by
  obtain ⟨bs, hbs⟩ := validate_encode reg r v h
  refine ⟨bs, hbs, needRef reg r v, ?_⟩
  have hdec := (encode_decode_bound reg (sizeOf v)).2.1 r v bs le_rfl hbs
    (needRef reg r v) le_rfl []
  rw [List.append_nil] at hdec
  simp only [decode, hdec]

/-- Witness for c1_round_trip at the Point example. -/
theorem c1_round_trip_witness :
    validateRef pointReg (.resolved "Point") pointValue = .ok () ∧
    (∃ bs, encodeRef pointReg (.resolved "Point") pointValue = .ok bs ∧
      ∃ fuel, decode pointReg fuel (.resolved "Point") bs = .ok pointValue) := by
  have h : validateRef pointReg (.resolved "Point") pointValue = .ok () := by
    simp [pointReg, pointValue, validateRef, validateDesc, validateFields, lookupReg]
  exact ⟨h, c1_round_trip pointReg (.resolved "Point") pointValue h⟩

end Iroha

namespace Iroha

/-- In a registry that is a fixed point of resolution, every registered
Descriptor resolves to itself. -/
theorem resolveEntries_fixed (reg : Registry) :
    ∀ src, resolveEntries reg src = .ok src →
      ∀ n d, lookupReg src n = some d → resolveDescriptor reg d = .ok d := by
  intro src
  induction src with
  | nil => intro h n d hl; simp [lookupReg] at hl
  | cons p rest ih =>
      obtain ⟨k, d0⟩ := p
      intro h n d hl
      rw [resolveEntries] at h
      cases h1 : resolveDescriptor reg d0 with
      | error e => simp only [h1] at h; exact Except.noConfusion h
      | ok d2 =>
          simp only [h1] at h
          cases h2 : resolveEntries reg rest with
          | error e => simp only [h2] at h; exact Except.noConfusion h
          | ok rest2 =>
              simp only [h2, Except.ok.injEq] at h
              injection h with hhead htail
              have hd2 : d2 = d0 := congrArg Prod.snd hhead
              rw [lookupReg] at hl
              by_cases hk : k = n
              · rw [if_pos hk] at hl
                injection hl with hd
                rw [← hd, h1, hd2]
              · rw [if_neg hk] at hl
                rw [htail] at h2
                exact ih h2 n d hl

/-- Struct inversion of a fixed-point Descriptor resolution. -/
theorem resolveDescriptor_fixed_struct (reg : Registry)
    (fs : List (String × TypeRef))
    (h : resolveDescriptor reg (.struct fs) = .ok (.struct fs)) :
    resolveFields reg fs = .ok fs := by
  rw [resolveDescriptor] at h
  cases h1 : resolveFields reg fs with
  | error e => simp only [h1] at h; exact Except.noConfusion h
  | ok fs2 =>
      simp only [h1, Except.ok.injEq] at h
      injection h with h2
      rw [h2]

/-- Enum inversion of a fixed-point Descriptor resolution. -/
theorem resolveDescriptor_fixed_enum (reg : Registry)
    (vs : List (String × Option TypeRef))
    (h : resolveDescriptor reg (.enum vs) = .ok (.enum vs)) :
    resolveVariants reg vs = .ok vs := by
  rw [resolveDescriptor] at h
  cases h1 : resolveVariants reg vs with
  | error e => simp only [h1] at h; exact Except.noConfusion h
  | ok vs2 =>
      simp only [h1, Except.ok.injEq] at h
      injection h with h2
      rw [h2]

/-- Tuple inversion of a fixed-point Descriptor resolution. -/
theorem resolveDescriptor_fixed_tuple (reg : Registry) (es : List TypeRef)
    (h : resolveDescriptor reg (.tuple es) = .ok (.tuple es)) :
    resolveElems reg es = .ok es := by
  rw [resolveDescriptor] at h
  cases h1 : resolveElems reg es with
  | error e => simp only [h1] at h; exact Except.noConfusion h
  | ok es2 =>
      simp only [h1, Except.ok.injEq] at h
      injection h with h2
      rw [h2]

/-- Cons inversion of a fixed-point field-list resolution. -/
theorem resolveFields_fixed_cons (reg : Registry) (nm : String) (r : TypeRef)
    (rest : List (String × TypeRef))
    (h : resolveFields reg ((nm, r) :: rest) = .ok ((nm, r) :: rest)) :
    resolveRef reg r = .ok r ∧ resolveFields reg rest = .ok rest := by
  rw [resolveFields] at h
  cases h1 : resolveRef reg r with
  | error e => simp only [h1] at h; exact Except.noConfusion h
  | ok r2 =>
      simp only [h1] at h
      cases h2 : resolveFields reg rest with
      | error e => simp only [h2] at h; exact Except.noConfusion h
      | ok rest2 =>
          simp only [h2, Except.ok.injEq] at h
          injection h with hhead htail
          have hr2 : r2 = r := by simpa using congrArg Prod.snd hhead
          exact ⟨by rw [hr2], by rw [htail]⟩

/-- Cons inversion of a fixed-point element-list resolution. -/
theorem resolveElems_fixed_cons (reg : Registry) (r : TypeRef)
    (rest : List TypeRef)
    (h : resolveElems reg (r :: rest) = .ok (r :: rest)) :
    resolveRef reg r = .ok r ∧ resolveElems reg rest = .ok rest := by
  rw [resolveElems] at h
  cases h1 : resolveRef reg r with
  | error e => simp only [h1] at h; exact Except.noConfusion h
  | ok r2 =>
      simp only [h1] at h
      cases h2 : resolveElems reg rest with
      | error e => simp only [h2] at h; exact Except.noConfusion h
      | ok rest2 =>
          simp only [h2, Except.ok.injEq] at h
          injection h with hhead htail
          exact ⟨by rw [hhead], by rw [htail]⟩

/-- In a fixed-point variant list, the payload TypeRef found for any name
resolves to itself. -/
theorem resolveVariants_findVariant (reg : Registry) :
    ∀ vs, resolveVariants reg vs = .ok vs →
      ∀ name i r, findVariant vs name = some (i, some r) →
        resolveRef reg r = .ok r := by
  intro vs
  induction vs with
  | nil => intro h name i r hf; simp [findVariant] at hf
  | cons p rest ih =>
      obtain ⟨vn, pp⟩ := p
      intro h name i r hf
      rw [findVariant] at hf
      cases pp with
      | none =>
          rw [resolveVariants] at h
          cases h2 : resolveVariants reg rest with
          | error e => simp only [h2] at h; exact Except.noConfusion h
          | ok rest2 =>
              simp only [h2, Except.ok.injEq] at h
              injection h with hhead htail
              rw [htail] at h2
              by_cases hv : vn = name
              · rw [if_pos hv] at hf
                simp only [Option.some.injEq, Prod.mk.injEq] at hf
                exact absurd hf.2 (by simp)
              · rw [if_neg hv] at hf
                cases hrest : findVariant rest name with
                | none => rw [hrest] at hf; simp at hf
                | some jp =>
                    obtain ⟨j, pj⟩ := jp
                    rw [hrest] at hf
                    simp only [Option.map_some', Option.some.injEq,
                      Prod.mk.injEq] at hf
                    rw [hf.2] at hrest
                    exact ih h2 name j r hrest
      | some r0 =>
          rw [resolveVariants] at h
          cases h1 : resolveRef reg r0 with
          | error e => simp only [h1] at h; exact Except.noConfusion h
          | ok r02 =>
              simp only [h1] at h
              cases h2 : resolveVariants reg rest with
              | error e => simp only [h2] at h; exact Except.noConfusion h
              | ok rest2 =>
                  simp only [h2, Except.ok.injEq] at h
                  injection h with hhead htail
                  have hr0 : r02 = r0 := by
                    have := congrArg Prod.snd hhead
                    simpa using this
                  rw [htail] at h2
                  by_cases hv : vn = name
                  · rw [if_pos hv] at hf
                    simp only [Option.some.injEq, Prod.mk.injEq,
                      Option.some.injEq] at hf
                    rw [← hf.2]
                    rw [hr0] at h1
                    exact h1
                  · rw [if_neg hv] at hf
                    cases hrest : findVariant rest name with
                    | none => rw [hrest] at hf; simp at hf
                    | some jp =>
                        obtain ⟨j, pj⟩ := jp
                        rw [hrest] at hf
                        simp only [Option.map_some', Option.some.injEq,
                          Prod.mk.injEq] at hf
                        rw [hf.2] at hrest
                        exact ih h2 name j r hrest

end Iroha

namespace Iroha

/-- Against fully resolved descriptors, construction-time validation
either succeeds or reports a ShapeMismatchError — never any other error
kind; graded by value size for the mutual induction. -/
theorem validate_shape_bound (reg : Registry)
    (hfix : ∀ n d, lookupReg reg n = some d → resolveDescriptor reg d = .ok d) :
    ∀ N : Nat,
    (∀ d v, sizeOf v ≤ N → resolveDescriptor reg d = .ok d →
      validateDesc reg d v = .ok () ∨
        ∃ s, validateDesc reg d v = .error (.shapeMismatch s)) ∧
    (∀ r v, sizeOf v ≤ N → resolveRef reg r = .ok r →
      validateRef reg r v = .ok () ∨
        ∃ s, validateRef reg r v = .error (.shapeMismatch s)) ∧
    (∀ fs fvs, sizeOf fvs ≤ N → resolveFields reg fs = .ok fs →
      validateFields reg fs fvs = .ok () ∨
        ∃ s, validateFields reg fs fvs = .error (.shapeMismatch s)) ∧
    (∀ es xs, sizeOf xs ≤ N → resolveElems reg es = .ok es →
      validateElems reg es xs = .ok () ∨
        ∃ s, validateElems reg es xs = .error (.shapeMismatch s)) := by
  intro N
  induction N using Nat.strong_induction_on with
  | _ N ih =>
  have hdesc : ∀ d v, sizeOf v ≤ N → resolveDescriptor reg d = .ok d →
      validateDesc reg d v = .ok () ∨
        ∃ s, validateDesc reg d v = .error (.shapeMismatch s) := by
    intro d v hsz hd
    cases d with
    | struct fs =>
        cases v with
        | vstruct fvs =>
            have hres := resolveDescriptor_fixed_struct reg fs hd
            have hlt : sizeOf fvs < N := by
              have hs : sizeOf (Value.vstruct fvs) = 1 + sizeOf fvs :=
                Value.vstruct.sizeOf_spec fvs
              omega
            rcases (ih (sizeOf fvs) hlt).2.2.1 fs fvs le_rfl hres with hok | ⟨s, hs⟩
            · left
              rw [validateDesc]
              exact hok
            · right
              exact ⟨s, by rw [validateDesc]; exact hs⟩
        | vuint32 k => exact Or.inr ⟨"struct", by simp [validateDesc]⟩
        | venum nm p => exact Or.inr ⟨"struct", by simp [validateDesc]⟩
        | vtuple xs => exact Or.inr ⟨"struct", by simp [validateDesc]⟩
    | enum vs =>
        cases v with
        | venum name payload =>
            cases hfv : findVariant vs name with
            | none =>
                right
                exact ⟨name, by rw [validateDesc, hfv]⟩
            | some ip =>
                obtain ⟨i, pr⟩ := ip
                cases pr with
                | none =>
                    cases payload with
                    | none =>
                        by_cases hi : i < 256
                        · left
                          rw [validateDesc, hfv]
                          dsimp only
                          rw [if_pos hi]
                        · right
                          refine ⟨"discriminant", ?_⟩
                          rw [validateDesc, hfv]
                          dsimp only
                          rw [if_neg hi]
                    | some pv =>
                        right
                        exact ⟨name, by rw [validateDesc, hfv]⟩
                | some r =>
                    cases payload with
                    | none =>
                        right
                        exact ⟨name, by rw [validateDesc, hfv]⟩
                    | some pv =>
                        have hres := resolveDescriptor_fixed_enum reg vs hd
                        have hr :=
                          resolveVariants_findVariant reg vs hres name i r hfv
                        have hlt : sizeOf pv < N := by
                          have hs : sizeOf (Value.venum name (some pv)) =
                              1 + sizeOf name + sizeOf (some pv) :=
                            Value.venum.sizeOf_spec name (some pv)
                          have ho : sizeOf (some pv) = 1 + sizeOf pv :=
                            Option.some.sizeOf_spec pv
                          omega
                        rcases (ih (sizeOf pv) hlt).2.1 r pv le_rfl hr with
                          hok | ⟨s, hs⟩
                        · by_cases hi : i < 256
                          · left
                            rw [validateDesc, hfv]
                            dsimp only
                            rw [hok]
                            dsimp only
                            rw [if_pos hi]
                          · right
                            refine ⟨"discriminant", ?_⟩
                            rw [validateDesc, hfv]
                            dsimp only
                            rw [hok]
                            dsimp only
                            rw [if_neg hi]
                        · right
                          refine ⟨s, ?_⟩
                          rw [validateDesc, hfv]
                          dsimp only
                          rw [hs]
        | vuint32 k => exact Or.inr ⟨"enum", by simp [validateDesc]⟩
        | vstruct fvs => exact Or.inr ⟨"enum", by simp [validateDesc]⟩
        | vtuple xs => exact Or.inr ⟨"enum", by simp [validateDesc]⟩
    | tuple es =>
        cases v with
        | vtuple xs =>
            have hres := resolveDescriptor_fixed_tuple reg es hd
            have hlt : sizeOf xs < N := by
              have hs : sizeOf (Value.vtuple xs) = 1 + sizeOf xs :=
                Value.vtuple.sizeOf_spec xs
              omega
            rcases (ih (sizeOf xs) hlt).2.2.2 es xs le_rfl hres with hok | ⟨s, hs⟩
            · left
              rw [validateDesc]
              exact hok
            · right
              exact ⟨s, by rw [validateDesc]; exact hs⟩
        | vuint32 k => exact Or.inr ⟨"tuple", by simp [validateDesc]⟩
        | venum nm p => exact Or.inr ⟨"tuple", by simp [validateDesc]⟩
        | vstruct fvs => exact Or.inr ⟨"tuple", by simp [validateDesc]⟩
  have href : ∀ r v, sizeOf v ≤ N → resolveRef reg r = .ok r →
      validateRef reg r v = .ok () ∨
        ∃ s, validateRef reg r v = .error (.shapeMismatch s) := by
    intro r v hsz hr
    cases r with
    | prim k =>
        cases k
        cases v with
        | vuint32 n =>
            by_cases hn : n < 4294967296
            · left
              simp [validateRef, hn]
            · right
              exact ⟨"uint32 range", by simp [validateRef, hn]⟩
        | vstruct fvs => exact Or.inr ⟨"uint32", by simp [validateRef]⟩
        | venum nm p => exact Or.inr ⟨"uint32", by simp [validateRef]⟩
        | vtuple xs => exact Or.inr ⟨"uint32", by simp [validateRef]⟩
    | pending n =>
        rw [resolveRef] at hr
        cases hl : lookupReg reg n with
        | none => rw [hl] at hr; exact Except.noConfusion hr
        | some d =>
            rw [hl] at hr
            dsimp only at hr
            injection hr with hr2
            exact TypeRef.noConfusion hr2
    | resolved n =>
        rw [resolveRef] at hr
        cases hl : lookupReg reg n with
        | none => rw [hl] at hr; exact Except.noConfusion hr
        | some d =>
            have hd := hfix n d hl
            rcases hdesc d v hsz hd with hok | ⟨s, hs⟩
            · left
              rw [validateRef, hl]
              exact hok
            · right
              exact ⟨s, by rw [validateRef, hl]; exact hs⟩
  have hfieldsE : ∀ fs fvs, sizeOf fvs ≤ N → resolveFields reg fs = .ok fs →
      validateFields reg fs fvs = .ok () ∨
        ∃ s, validateFields reg fs fvs = .error (.shapeMismatch s) := by
    intro fs fvs hsz hres
    cases fs with
    | nil =>
        cases fvs with
        | nil => left; rw [validateFields]
        | cons q fvs2 =>
            obtain ⟨vn, v⟩ := q
            right
            exact ⟨vn, by rw [validateFields]⟩
    | cons p fs2 =>
        obtain ⟨fn, r⟩ := p
        cases fvs with
        | nil =>
            right
            exact ⟨fn, by rw [validateFields]⟩
        | cons q fvs2 =>
            obtain ⟨vn, v⟩ := q
            obtain ⟨hr, hrest⟩ := resolveFields_fixed_cons reg fn r fs2 hres
            by_cases hfn : fn = vn
            · have hlt1 : sizeOf v < N := by
                have hc : sizeOf ((vn, v) :: fvs2) =
                    1 + sizeOf (vn, v) + sizeOf fvs2 :=
                  List.cons.sizeOf_spec (vn, v) fvs2
                have hp : sizeOf (vn, v) = 1 + sizeOf vn + sizeOf v :=
                  Prod.mk.sizeOf_spec vn v
                omega
              have hlt2 : sizeOf fvs2 < N := by
                have hc : sizeOf ((vn, v) :: fvs2) =
                    1 + sizeOf (vn, v) + sizeOf fvs2 :=
                  List.cons.sizeOf_spec (vn, v) fvs2
                omega
              rcases (ih (sizeOf v) hlt1).2.1 r v le_rfl hr with hok1 | ⟨s, hs1⟩
              · rcases (ih (sizeOf fvs2) hlt2).2.2.1 fs2 fvs2 le_rfl hrest with
                  hok2 | ⟨s, hs2⟩
                · left
                  rw [validateFields, if_pos hfn, hok1]
                  dsimp only
                  exact hok2
                · right
                  refine ⟨s, ?_⟩
                  rw [validateFields, if_pos hfn, hok1]
                  dsimp only
                  exact hs2
              · right
                refine ⟨s, ?_⟩
                rw [validateFields, if_pos hfn, hs1]
            · right
              exact ⟨fn, by rw [validateFields, if_neg hfn]⟩
  have helemsE : ∀ es xs, sizeOf xs ≤ N → resolveElems reg es = .ok es →
      validateElems reg es xs = .ok () ∨
        ∃ s, validateElems reg es xs = .error (.shapeMismatch s) := by
    intro es xs hsz hres
    cases es with
    | nil =>
        cases xs with
        | nil => left; rw [validateElems]
        | cons x xs2 => right; exact ⟨"arity", by rw [validateElems]⟩
    | cons r es2 =>
        cases xs with
        | nil => right; exact ⟨"arity", by rw [validateElems]⟩
        | cons x xs2 =>
            obtain ⟨hr, hrest⟩ := resolveElems_fixed_cons reg r es2 hres
            have hlt1 : sizeOf x < N := by
              have hc : sizeOf (x :: xs2) = 1 + sizeOf x + sizeOf xs2 :=
                List.cons.sizeOf_spec x xs2
              omega
            have hlt2 : sizeOf xs2 < N := by
              have hc : sizeOf (x :: xs2) = 1 + sizeOf x + sizeOf xs2 :=
                List.cons.sizeOf_spec x xs2
              omega
            rcases (ih (sizeOf x) hlt1).2.1 r x le_rfl hr with hok1 | ⟨s, hs1⟩
            · rcases (ih (sizeOf xs2) hlt2).2.2.2 es2 xs2 le_rfl hrest with
                hok2 | ⟨s, hs2⟩
              · left
                rw [validateElems, hok1]
                dsimp only
                exact hok2
              · right
                refine ⟨s, ?_⟩
                rw [validateElems, hok1]
                dsimp only
                exact hs2
            · right
              refine ⟨s, ?_⟩
              rw [validateElems, hs1]
  exact ⟨hdesc, href, hfieldsE, helemsE⟩

end Iroha

namespace Iroha

/-- C6: against a resolved Registry and a resolved TypeRef, construction
is all-or-nothing and fail-fast — a successful construct returns exactly
the given Value, a constructed Value always encodes (the shape check is
not deferred to encode time), and any construction failure is a
ShapeMismatchError. -/
theorem c6_construction_validates (reg : Registry) (r : TypeRef) (v : Value)
    (hreg : resolveAll reg = .ok reg)
    (hr : resolveRef reg r = .ok r) :
    (∀ w, construct reg r v = .ok w → w = v) ∧
    (construct reg r v = .ok v → ∃ bs, encodeRef reg r v = .ok bs) ∧
    (∀ e, construct reg r v = .error e → ∃ s, e = .shapeMismatch s) := by
  have hfix : ∀ n d, lookupReg reg n = some d → resolveDescriptor reg d = .ok d :=
    resolveEntries_fixed reg reg hreg
  refine ⟨?_, ?_, ?_⟩
  · intro w hw
    cases hval : validateRef reg r v with
    | ok u =>
        cases u
        simp only [construct, hval] at hw
        injection hw with hw2
        exact hw2.symm
    | error e =>
        simp only [construct, hval] at hw
        exact Except.noConfusion hw
  · intro hw
    cases hval : validateRef reg r v with
    | ok u =>
        cases u
        exact validate_encode reg r v hval
    | error e =>
        simp only [construct, hval] at hw
        exact Except.noConfusion hw
  · intro e he
    cases hval : validateRef reg r v with
    | ok u =>
        cases u
        simp only [construct, hval] at he
        exact Except.noConfusion he
    | error e2 =>
        simp only [construct, hval] at he
        injection he with he2
        rcases (validate_shape_bound reg hfix (sizeOf v)).2.1 r v le_rfl hr with
          hok | ⟨s, hs⟩
        · rw [hval] at hok
          exact Except.noConfusion hok
        · rw [hval] at hs
          injection hs with hs2
          exact ⟨s, by rw [← he2, hs2]⟩

/-- Witness for c6_construction_validates at the Point registry: the
hypotheses hold, a valid value constructs and encodes, and constructing a
mismatched value reports only ShapeMismatchError. -/
theorem c6_construction_validates_witness :
    resolveAll pointReg = .ok pointReg ∧
    resolveRef pointReg (.resolved "Point") = .ok (.resolved "Point") ∧
    (∀ e, construct pointReg (.resolved "Point") (.vuint32 5) = .error e →
      ∃ s, e = .shapeMismatch s) := by
  have h1 : resolveAll pointReg = .ok pointReg := by
    simp [pointReg, resolveAll, resolveEntries, resolveDescriptor,
      resolveFields, resolveRef, lookupReg]
  have h2 : resolveRef pointReg (.resolved "Point") = .ok (.resolved "Point") := by
    simp [pointReg, resolveRef, lookupReg]
  exact ⟨h1, h2,
    (c6_construction_validates pointReg (.resolved "Point") (.vuint32 5) h1 h2).2.2⟩

end Iroha
